import Mathlib

/-!
Verification of the training orchestration loop in
graphgps/train/custom_train.py (GraphGPS repository).

The file shallowly embeds, in Lean, the control flow and the pure decision
logic of that module:

* the nested epoch/iteration schedule of custom_train (lines 194-371),
  as a trace of phase events (supervised training epoch, distillation
  epoch, head fine-tuning epoch);
* the total_epoch counter (incremented at lines 317 and 359 only);
* the model/teacher/student data flow across outer iterations
  (lines 331-366);
* the checkpoint decision on an epoch (lines 257-259 and 296-299),
  including numpy argmin/argmax selection of the best epoch
  (lines 266-272);
* the per-epoch performance-list bookkeeping (lines 239-252);
* the gradient-accumulation stepping of train_epoch and head_epoch
  (lines 42-60 and 75-100);
* the layer requires_grad enabling loop (lines 222-227);
* the distillation loss (lines 119-128) and the head fine-tuning forward
  pass (lines 78-85), with the float tensor arithmetic of the source
  modelled by real-number arithmetic.

External collaborators (loaders, loggers, torch autograd, the metric
library, is_eval_epoch from graphgym) are modelled as parameters, as the
specification declares them out of scope.
-/

/-- The optimizer-schedule part of the configuration used by custom_train:
cfg.optim.num_iteration, cfg.optim.max_epoch, cfg.optim.distill_epoch,
cfg.optim.head_finetune. -/
structure OptimCfg where
  numIteration : ℕ
  maxEpoch : ℕ
  distillEpoch : ℕ
  headFinetune : ℕ
deriving DecidableEq

/-- One epoch-level event of custom_train: a supervised training epoch of
the given outer iteration (line 237), a distillation epoch (line 351), or a
head fine-tuning epoch (line 364).  Each event carries the outer iteration
index and the inner epoch index (the loop variable cur_epoch). -/
inductive Ev where
  | train : ℕ → ℕ → Ev
  | distill : ℕ → ℕ → Ev
  | finetune : ℕ → ℕ → Ev
deriving DecidableEq

/-- The supervised training phase of one outer iteration
(lines 233-235): `for cur_epoch in range(start_epoch, cfg.optim.max_epoch)`
guarded by `if cfg.optim.distill_epoch == 0 or cur_iteration != 0`. -/
def trainPhaseEvents (cfg : OptimCfg) (k s : ℕ) : List Ev :=
  if cfg.distillEpoch = 0 ∨ k ≠ 0 then
    (List.range' s (cfg.maxEpoch - s)).map (Ev.train k)
  else []

/-- Line 328: `start_epoch = start_epoch if start_epoch > cfg.optim.max_epoch
else 0`, the value of start_epoch used by the distillation loop (line 348)
and the head fine-tuning loop (line 362). -/
def distillResumeEpoch (cfg : OptimCfg) (s : ℕ) : ℕ :=
  if cfg.maxEpoch < s then s else 0

/-- The distillation phase of one outer iteration (line 348):
`for cur_epoch in range(start_epoch, cfg.optim.distill_epoch)` with the
start_epoch of line 328. -/
def distillPhaseEvents (cfg : OptimCfg) (k s : ℕ) : List Ev :=
  (List.range' (distillResumeEpoch cfg s)
      (cfg.distillEpoch - distillResumeEpoch cfg s)).map (Ev.distill k)

/-- The head fine-tuning phase of one outer iteration (line 362):
`for cur_epoch in range(start_epoch, cfg.optim.head_finetune)` with the
start_epoch of line 328. -/
def finetunePhaseEvents (cfg : OptimCfg) (k s : ℕ) : List Ev :=
  (List.range' (distillResumeEpoch cfg s)
      (cfg.headFinetune - distillResumeEpoch cfg s)).map (Ev.finetune k)

/-- All epoch events of outer iteration k entered with start_epoch s
(lines 233-364, in program order: train, then distill, then fine-tune). -/
def iterationEvents (cfg : OptimCfg) (k s : ℕ) : List Ev :=
  trainPhaseEvents cfg k s ++ distillPhaseEvents cfg k s
    ++ finetunePhaseEvents cfg k s

/-- The outer iteration loop (line 231): iterations are processed in order;
the first pending iteration uses the resume start_epoch, every later one
uses start_epoch = 0 (line 370). -/
def runIters (cfg : OptimCfg) : List ℕ → ℕ → List Ev
  | [], _ => []
  | k :: ks, s => iterationEvents cfg k s ++ runIters cfg ks 0

/-- The full event trace of custom_train when the loaded checkpoint count is
E (lines 229-231): start_iteration = E // (max_epoch + distill_epoch),
start_epoch = E % (max_epoch + distill_epoch), and the iteration loop runs
`range(start_iteration, cfg.optim.num_iteration)`.  (When
max_epoch + distill_epoch = 0 the Python code raises ZeroDivisionError;
Lean division by zero yields 0, and all theorems below assume
0 < max_epoch where this matters.) -/
def custom_train_events (cfg : OptimCfg) (E : ℕ) : List Ev :=
  runIters cfg
    (List.range' (E / (cfg.maxEpoch + cfg.distillEpoch))
      (cfg.numIteration - E / (cfg.maxEpoch + cfg.distillEpoch)))
    (E % (cfg.maxEpoch + cfg.distillEpoch))

/-- Whether an event increments total_epoch: training epochs do (line 317)
and distillation epochs do (line 359); head fine-tuning epochs do not
(the loop at lines 362-364 contains no increment). -/
def incrementsTotalEpoch : Ev → Bool
  | Ev.train _ _ => true
  | Ev.distill _ _ => true
  | Ev.finetune _ _ => false

/-- The events of a run that are counted by total_epoch. -/
def countedEvents (cfg : OptimCfg) (E : ℕ) : List Ev :=
  (custom_train_events cfg E).filter incrementsTotalEpoch

/-- The amount total_epoch grows during one outer iteration entered with
start_epoch s: one increment per executed supervised training epoch
(line 317) plus one per executed distillation epoch (line 359). -/
def iterationEpochDelta (cfg : OptimCfg) (k s : ℕ) : ℕ :=
  (trainPhaseEvents cfg k s).length + (distillPhaseEvents cfg k s).length

/-- Provenance of a model object flowing through custom_train.
`supplied` is the model argument (trained in place during the supervised
phase; in-place updates do not change which object it is).
`freshStudent k di dOut` is the object built at line 331 of iteration k,
`GPSSEMModel(model.dim_in, model.dim_out)`; the distillation loop
(line 351) and head fine-tuning (line 364) update it in place.
`copyOf m` is `copy.deepcopy(m)` (line 366). -/
inductive MVal where
  | supplied : MVal
  | freshStudent : ℕ → ℕ → ℕ → MVal
  | copyOf : MVal → MVal
deriving DecidableEq

/-- Modelled from the spec: the GPSSEMModel network constructor
(graphgps/network/gps_sem_model.py, not under src/) builds a model whose
input/output dimensions are its two arguments; a deep copy preserves them;
the supplied model has the run's original dimensions d0.  This returns
(dim_in, dim_out) of a model value. -/
def mvalDims (d0 : ℕ × ℕ) : MVal → ℕ × ℕ
  | MVal.supplied => d0
  | MVal.freshStudent _ di dOut => (di, dOut)
  | MVal.copyOf m => mvalDims d0 m

/-- The model data flow of one outer iteration body (lines 331-366):
`new_model = GPSSEMModel(model.dim_in, model.dim_out)` (line 331), the
current model is passed to distill_epoch as the teacher and new_model as
the student (line 351), head fine-tuning updates new_model in place
(line 364), and `model = copy.deepcopy(new_model)` (line 366). -/
structure IterModelTrace where
  teacher : MVal
  student : MVal
  nextModel : MVal
deriving DecidableEq

/-- The teacher, student and end-of-iteration model of iteration k when
entered with the given current model (lines 331-366). -/
def custom_train_iteration_models (d0 : ℕ × ℕ) (k : ℕ) (model : MVal) :
    IterModelTrace :=
  let new_model := MVal.freshStudent k (mvalDims d0 model).1
    (mvalDims d0 model).2
  { teacher := model
    student := new_model
    nextModel := MVal.copyOf new_model }

/-- The model in use at the start of outer iteration k: the supplied model
at iteration 0, and thereafter the deep copy (line 366) of the previous
iteration's distilled-and-fine-tuned student. -/
def modelAtIteration (d0 : ℕ × ℕ) : ℕ → MVal
  | 0 => MVal.supplied
  | k + 1 =>
    (custom_train_iteration_models d0 k (modelAtIteration d0 k)).nextModel

/-- One recorded performance entry (a row of the perf lists, lines
239-248): its validation loss and the value of the cfg.metric_best
metric.  Float metric values of the source are modelled as rationals. -/
structure PerfEntry where
  loss : ℚ
  mval : ℚ
deriving DecidableEq

/-- The aggregation named by cfg.metric_agg and applied via
`getattr(np.array(...), cfg.metric_agg)()` at line 271.  The two values
used by the pipeline are argmin and argmax; any other attribute name would
not produce an epoch index there. -/
inductive MetricAgg where
  | argmin : MetricAgg
  | argmax : MetricAgg
deriving DecidableEq

/-- Scanning step of numpy argmin over a list: keeps the first index
attaining the running minimum (strict comparison, so ties keep the
earlier index, as np.argmin does). -/
def npArgminAux : ℚ → ℕ → ℕ → List ℚ → ℕ
  | _, bi, _, [] => bi
  | b, bi, i, x :: xs =>
    if x < b then npArgminAux x i (i + 1) xs else npArgminAux b bi (i + 1) xs

/-- np.argmin of a list of rationals: index of the first minimum
(np.argmin errors on an empty array; 0 is returned here as a junk value,
and every theorem about it assumes a nonempty list). -/
def npArgmin : List ℚ → ℕ
  | [] => 0
  | x :: xs => npArgminAux x 0 1 xs

/-- Scanning step of numpy argmax over a list (first index of the
maximum). -/
def npArgmaxAux : ℚ → ℕ → ℕ → List ℚ → ℕ
  | _, bi, _, [] => bi
  | b, bi, i, x :: xs =>
    if b < x then npArgmaxAux x i (i + 1) xs else npArgmaxAux b bi (i + 1) xs

/-- np.argmax of a list of rationals, first index of the maximum. -/
def npArgmax : List ℚ → ℕ
  | [] => 0
  | x :: xs => npArgmaxAux x 0 1 xs

/-- The best-epoch selection of lines 266-272: best_epoch is the np.argmin
of the recorded validation losses (line 266); when cfg.metric_best is not
the string auto it is recomputed as cfg.metric_agg applied to the recorded
validation values of the cfg.metric_best metric (line 271). -/
def bestEpoch (metricBest : String) (agg : MetricAgg)
    (valPerf : List PerfEntry) : ℕ :=
  let fromLoss := npArgmin (valPerf.map PerfEntry.loss)
  if metricBest ≠ "auto" then
    match agg with
    | MetricAgg.argmin => npArgmin (valPerf.map PerfEntry.mval)
    | MetricAgg.argmax => npArgmax (valPerf.map PerfEntry.mval)
  else fromLoss

/-- Whether save_ckpt runs on a supervised training epoch, combining the
periodic branch (lines 257-259: enable_ckpt, not ckpt_best, is_ckpt_epoch)
and the best-checkpoint branch (lines 296-299: inside the is_eval_epoch
block, enable_ckpt and ckpt_best and best_epoch == total_epoch). -/
def epochCkptDecision (enableCkpt ckptBest isCkptEp isEval : Bool)
    (metricBest : String) (agg : MetricAgg) (valPerf : List PerfEntry)
    (totalEpoch : ℕ) : Bool :=
  (enableCkpt && !ckptBest && isCkptEp)
    || (isEval && (enableCkpt && ckptBest
        && decide (bestEpoch metricBest agg valPerf = totalEpoch)))

/-- One optimizer step performed inside train_epoch (lines 56-60) or
head_epoch (lines 96-100): the 1-based index of the batch after which the
step runs, whether gradient clipping to norm 1.0 preceded it
(cfg.optim.clip_grad_norm, lines 57-58 and 97-98), and the 0-based indices
of the batches whose accumulated gradients the step consumes. -/
structure StepEv where
  afterBatch : ℕ
  clipped : Bool
  consumed : List ℕ
deriving DecidableEq

/-- The accumulation loop of train_epoch (lines 42-60) and head_epoch
(lines 75-100) over batches i, i+1, ... (k batches remaining, n batches in
the loader): each batch's backward adds its gradient to the accumulator
(line 54/94); when `(iter + 1) % batch_accumulation == 0 or iter + 1 ==
len(loader)` (line 56/96) the optimizer steps, consuming the accumulator,
and the gradients are zeroed (line 60/100).  Returns the steps performed
and the gradients left accumulated at loop exit. -/
def gradAccumGo (clip : Bool) (B n : ℕ) : ℕ → List ℕ → ℕ → List StepEv × List ℕ
  | _, pending, 0 => ([], pending)
  | i, pending, k + 1 =>
    let pending2 := pending ++ [i]
    if (i + 1) % B = 0 ∨ i + 1 = n then
      let r := gradAccumGo clip B n (i + 1) [] k
      ({ afterBatch := i + 1, clipped := clip, consumed := pending2 } :: r.1,
        r.2)
    else
      gradAccumGo clip B n (i + 1) pending2 k

/-- The optimizer steps of one train_epoch over a loader of n batches:
gradients are zeroed at loop entry (line 40), then the accumulation loop
runs over batches 0 .. n-1. -/
def train_epoch_steps (clip : Bool) (B n : ℕ) : List StepEv × List ℕ :=
  gradAccumGo clip B n 0 [] n

/-- The optimizer steps of one head_epoch over a loader of n batches:
gradients are zeroed at loop entry (line 73), then the identical
accumulation loop (lines 75-100) runs over batches 0 .. n-1. -/
def head_epoch_steps (clip : Bool) (B n : ℕ) : List StepEv × List ℕ :=
  gradAccumGo clip B n 0 [] n

/-- Appending to the perf list of one evaluation split (lines 241-248):
on an eval epoch the fresh evaluation result of split i is appended
(lines 242-245); otherwise the last recorded entry, perf[i][-1], is
duplicated (lines 247-248) — accessing perf[i][-1] of an empty list raises
IndexError, modelled by Except.error. -/
def appendPerfEntry (isEval : Bool) (evalEntry : ℕ → PerfEntry) (i : ℕ)
    (l : List PerfEntry) : Except Unit (List PerfEntry) :=
  if isEval then Except.ok (l ++ [evalEntry i])
  else
    match l.getLast? with
    | some e => Except.ok (l ++ [e])
    | none => Except.error ()

/-- The loop `for i in range(1, num_splits)` of lines 242-248, updating the
perf lists of the evaluation splits (the list argument is perf[1:], and i
is the split index of its head). -/
def updatePerfSplits (isEval : Bool) (evalEntry : ℕ → PerfEntry) :
    ℕ → List (List PerfEntry) → Except Unit (List (List PerfEntry))
  | _, [] => Except.ok []
  | i, l :: ls =>
    match appendPerfEntry isEval evalEntry i l with
    | Except.error e => Except.error e
    | Except.ok l2 =>
      match updatePerfSplits isEval evalEntry (i + 1) ls with
      | Except.error e => Except.error e
      | Except.ok ls2 => Except.ok (l2 :: ls2)

/-- The per-training-epoch perf bookkeeping of lines 239-252: the training
split appends the epoch's training stats (line 239); each evaluation split
appends a fresh evaluation result or a duplicate of its last entry
(lines 241-248); then val_perf = perf[1] (line 250, IndexError when there
is no validation split) and the plateau scheduler steps on
val_perf[-1]['loss'] (line 252), the returned rational. -/
def train_epoch_perf (isEval : Bool) (trainEntry : PerfEntry)
    (evalEntry : ℕ → PerfEntry) (perf : List (List PerfEntry)) :
    Except Unit (List (List PerfEntry) × ℚ) :=
  match perf with
  | [] => Except.error ()
  | p0 :: rest =>
    match updatePerfSplits isEval evalEntry 1 rest with
    | Except.error e => Except.error e
    | Except.ok rest2 =>
      let perf2 := (p0 ++ [trainEntry]) :: rest2
      match (perf2.getD 1 []).getLast? with
      | some v => Except.ok (perf2, v.loss)
      | none => Except.error ()

/-- What C6 guarantees about one completed (non-erroring) training epoch
whose perf lists all had length m on entry: all lists grow to length m+1,
the training split gains the training entry, each evaluation split gains
the fresh evaluation result exactly when is_eval_epoch held and otherwise a
duplicate of its previous last entry, and the loss handed to the plateau
scheduler is the last recorded validation loss. -/
def TrainEpochPerfPost (isEval : Bool) (trainEntry : PerfEntry)
    (evalEntry : ℕ → PerfEntry) (perf perf2 : List (List PerfEntry))
    (v : ℚ) (m : ℕ) : Prop :=
  perf2.length = perf.length
    ∧ (∀ l ∈ perf2, l.length = m + 1)
    ∧ perf2.getD 0 [] = perf.getD 0 [] ++ [trainEntry]
    ∧ (∀ i, 1 ≤ i → i < perf.length →
        (isEval = true → perf2.getD i [] = perf.getD i [] ++ [evalEntry i])
        ∧ (isEval = false → ∃ e, (perf.getD i []).getLast? = some e
            ∧ perf2.getD i [] = perf.getD i [] ++ [e]))
    ∧ ∃ last, (perf2.getD 1 []).getLast? = some last ∧ v = last.loss

/-- A layer of the model, as touched by lines 222-227: its parameter
tensors (modelled as a list of integers) and its requires_grad flag (the
source sets the flag per parameter, uniformly over a layer). -/
structure Layer where
  params : List Int
  requiresGrad : Bool
deriving DecidableEq

/-- `param.requires_grad = True` for every parameter of a layer
(lines 223-224 and 226-227). -/
def enableLayer (l : Layer) : Layer :=
  { l with requiresGrad := true }

/-- The first enabling loop (lines 222-224): every layer of the module
becomes trainable. -/
def enableAllParams (c : List Layer) : List Layer :=
  c.map enableLayer

/-- The second enabling loop's slice (lines 225-227):
`list(...children())[-cfg.optim.N_train_gps:]` — the last N layers; note
that the Python slice [-0:] is the whole list. -/
def enableLastN (N : ℕ) (c : List Layer) : List Layer :=
  c.mapIdx (fun j l => if N = 0 ∨ c.length ≤ j + N then enableLayer l else l)

/-- The requires_grad enabling code of lines 221-227: the last two
top-level children become fully trainable, and the last N_train_gps layers
of the third-from-last child become trainable.  (For a model with fewer
than three children, Python raises IndexError at line 225; the theorems
below only concern models with at least three children.)  A model is
represented as its list of top-level children, each a list of layers. -/
def setTrainableLayers (N : ℕ) (m : List (List Layer)) : List (List Layer) :=
  (m.mapIdx (fun i c => if m.length ≤ i + 2 then enableAllParams c else c)).mapIdx
    (fun i c => if i + 3 = m.length then enableLastN N c else c)

/-- One optimizer update during the supervised phase (lines 54-60):
loss.backward() populates gradients exactly on the requires_grad
parameters, and optimizer.step() moves exactly the parameters holding
gradients, by the abstract update upd; parameters with requires_grad
False are left untouched. -/
def stepTrainable (upd : List Int → List Int) (m : List (List Layer)) :
    List (List Layer) :=
  m.map (fun c => c.map (fun l =>
    if l.requiresGrad then { l with params := upd l.params } else l))

/-- The layer at child index i, layer index j (defaulting to an empty
frozen layer out of range). -/
def layerAt (m : List (List Layer)) (i j : ℕ) : Layer :=
  (m.getD i []).getD j { params := [], requiresGrad := false }

/-- Softmax over a logits vector along the last dimension
(torch.nn.functional.softmax(o, -1) / torch.nn.Softmax(-1)); the float
arithmetic of the source is modelled by real arithmetic. -/
noncomputable def softmaxR (V : ℕ) (o : Fin V → ℝ) : Fin V → ℝ :=
  fun i => Real.exp (o i) / ∑ j, Real.exp (o j)

/-- Line 125: the per-position sampling distribution of the teacher,
`Categorical(torch.nn.Softmax(-1)(o_teacher))` — the plain softmax of the
teacher logits, with no temperature applied. -/
noncomputable def teacherSampleProb (V : ℕ) (oT : Fin V → ℝ) : Fin V → ℝ :=
  softmaxR V oT

/-- PyTorch F.cross_entropy with an integer class target: the negative log
of the softmax probability of that class. -/
noncomputable def hardCrossEntropy (V : ℕ) (logits : Fin V → ℝ)
    (label : Fin V) : ℝ :=
  -Real.log (softmaxR V logits label)

/-- Line 128: `F.cross_entropy(o_student.reshape(-1,V)/tau,
teach_label.reshape(-1))` — the mean over the n flattened positions of the
hard-label cross-entropy of the temperature-scaled student logits at the
sampled teacher label. -/
noncomputable def distill_batch_loss (n V : ℕ)
    (oStudent : Fin n → Fin V → ℝ) (tau : ℝ)
    (teachLabel : Fin n → Fin V) : ℝ :=
  (∑ p, hardCrossEntropy V (fun v => oStudent p v / tau) (teachLabel p)) / n

/-- Lines 119-128, one distillation batch: student and teacher logits are
reshaped to (positions, V); a label per position is sampled from the
teacher's softmax (lines 125-126, outcome given by the abstract sampler),
and the loss is the hard-label cross-entropy at those labels (line 128). -/
noncomputable def distill_batch (n V : ℕ)
    (oStudent oTeacher : Fin n → Fin V → ℝ) (tau : ℝ)
    (sample : (Fin V → ℝ) → Fin V) : ℝ :=
  distill_batch_loss n V oStudent tau
    (fun p => sample (teacherSampleProb V (oTeacher p)))

/-- The claim's soft target: the teacher's temperature-softened output
probability distribution, softmax of the teacher logits divided by tau. -/
noncomputable def softTarget (V : ℕ) (oT : Fin V → ℝ) (tau : ℝ) :
    Fin V → ℝ :=
  softmaxR V (fun v => oT v / tau)

/-- The parameters of a GPSSEMModel as split by head_epoch: everything
used by forward_unnormalize_sem (the backbone) and the post-processing
head post_mp. -/
structure SemParams where
  backboneP : List ℝ
  postMpP : List ℝ

/-- The gradients present after loss.backward() in head_epoch (line 94):
none for a parameter group that received no gradient. -/
structure SemGrads where
  backboneG : Option (List ℝ)
  postMpG : Option (List ℝ)

/-- Lines 78-83 of head_epoch: under torch.no_grad() the backbone computes
out = forward_unnormalize_sem(batch); the result is reshaped to (-1, L, V),
softmax(o/tau, -1) is applied, and it is reshaped back; this (detached)
tensor is the input handed to post_mp at line 85. -/
noncomputable def head_batch_input {β : Type} (n V : ℕ)
    (forwardUnnormalizeSem : List ℝ → β → Fin n → Fin V → ℝ) (tau : ℝ)
    (bp : List ℝ) (batch : β) : Fin n → Fin V → ℝ :=
  fun p v => softmaxR V (fun w => forwardUnnormalizeSem bp batch p w / tau) v

/-- The gradients after loss.backward() in head_epoch (lines 78-94): the
forward pass ran the backbone inside torch.no_grad() and fed post_mp a
detached input (line 85), so backward reaches no backbone parameter and
the backbone gradient is none; the head gradient is given by the abstract
gradient function of the loss with respect to the head parameters at the
detached input. -/
noncomputable def head_batch_grads {β : Type} (n V : ℕ)
    (forwardUnnormalizeSem : List ℝ → β → Fin n → Fin V → ℝ)
    (gradPostMp : List ℝ → (Fin n → Fin V → ℝ) → List ℝ) (tau : ℝ)
    (s : SemParams) (batch : β) : SemGrads :=
  { backboneG := none
    postMpG := some (gradPostMp s.postMpP
      (head_batch_input n V forwardUnnormalizeSem tau s.backboneP batch)) }

/-- optimizer.step() on one parameter group (lines 96-100): a parameter
with no gradient is left unchanged, one with a gradient moves by the
abstract step function. -/
def applyGradStep (stepFn : List ℝ → List ℝ → List ℝ) (p : List ℝ) :
    Option (List ℝ) → List ℝ
  | none => p
  | some g => stepFn p g

/-- One head_epoch (lines 71-108): fold over the loader's batches, each
batch computing gradients (lines 78-94) and applying the optimizer step to
each parameter group (lines 96-100). -/
noncomputable def head_epoch_params {β : Type} (n V : ℕ)
    (forwardUnnormalizeSem : List ℝ → β → Fin n → Fin V → ℝ)
    (gradPostMp : List ℝ → (Fin n → Fin V → ℝ) → List ℝ)
    (stepFn : List ℝ → List ℝ → List ℝ) (tau : ℝ)
    (s : SemParams) (batches : List β) : SemParams :=
  batches.foldl (fun q b =>
    let g := head_batch_grads n V forwardUnnormalizeSem gradPostMp tau q b
    { backboneP := applyGradStep stepFn q.backboneP g.backboneG
      postMpP := applyGradStep stepFn q.postMpP g.postMpG }) s

-- Helper lemmas about the trace.

theorem filter_counted_map_train (l : List ℕ) (k : ℕ) :
    (l.map (Ev.train k)).filter incrementsTotalEpoch = l.map (Ev.train k) := by
  induction l with
  | nil => rfl
  | cons a t ih => simp [List.filter, incrementsTotalEpoch, ih]

theorem filter_counted_map_distill (l : List ℕ) (k : ℕ) :
    (l.map (Ev.distill k)).filter incrementsTotalEpoch = l.map (Ev.distill k) := by
  induction l with
  | nil => rfl
  | cons a t ih => simp [List.filter, incrementsTotalEpoch, ih]

theorem filter_counted_map_finetune (l : List ℕ) (k : ℕ) :
    (l.map (Ev.finetune k)).filter incrementsTotalEpoch = [] := by
  induction l with
  | nil => rfl
  | cons a t ih => simp [List.filter, incrementsTotalEpoch, ih]

theorem filter_counted_iteration (cfg : OptimCfg) (hd : cfg.distillEpoch = 0)
    (k s : ℕ) :
    (iterationEvents cfg k s).filter incrementsTotalEpoch
      = (List.range' s (cfg.maxEpoch - s)).map (Ev.train k) := by
  unfold iterationEvents trainPhaseEvents distillPhaseEvents
    finetunePhaseEvents
  have hcond : cfg.distillEpoch = 0 ∨ k ≠ 0 := Or.inl hd
  rw [if_pos hcond]
  rw [List.filter_append, List.filter_append, filter_counted_map_finetune,
    filter_counted_map_train]
  simp [hd]

theorem drop_range' (s a n : ℕ) :
    (List.range' a n).drop s = List.range' (a + s) (n - s) := by
  induction s generalizing a n with
  | zero => simp
  | succ s ih =>
    cases n with
    | zero => simp
    | succ m =>
      rw [List.range'_succ, List.drop_succ_cons, ih (a + 1) m]
      congr 1 <;> omega

theorem counted_run_drop (cfg : OptimCfg) (hd : cfg.distillEpoch = 0)
    (q : ℕ) : ∀ (n a s : ℕ), s < cfg.maxEpoch →
    ((runIters cfg (List.range' a n) 0).filter
        incrementsTotalEpoch).drop (q * cfg.maxEpoch + s)
      = (runIters cfg (List.range' (a + q) (n - q)) s).filter
          incrementsTotalEpoch := by
  induction q with
  | zero =>
    intro n a s hs
    cases n with
    | zero => simp [runIters]
    | succ m =>
      rw [Nat.add_zero, Nat.sub_zero, List.range'_succ]
      simp only [runIters]
      rw [List.filter_append, List.filter_append,
        filter_counted_iteration cfg hd, filter_counted_iteration cfg hd]
      rw [Nat.zero_mul, Nat.zero_add]
      rw [List.drop_append_of_le_length
        (by simp [List.length_map, List.length_range']; omega)]
      rw [← List.map_drop, drop_range']
      simp
  | succ q ih =>
    intro n a s hs
    cases n with
    | zero => simp [runIters]
    | succ m =>
      rw [List.range'_succ]
      simp only [runIters]
      rw [List.filter_append, filter_counted_iteration cfg hd]
      have hlen : ((List.range' 0 (cfg.maxEpoch - 0)).map (Ev.train a)).length
          = cfg.maxEpoch := by
        simp [List.length_map, List.length_range']
      have harith : (q + 1) * cfg.maxEpoch + s
          = ((List.range' 0 (cfg.maxEpoch - 0)).map (Ev.train a)).length
            + (q * cfg.maxEpoch + s) := by
        rw [hlen]; ring
      rw [harith, List.drop_append]
      rw [ih m (a + 1) s hs]
      have h1 : a + 1 + q = a + (q + 1) := by omega
      have h2 : m - q = m + 1 - (q + 1) := by omega
      rw [h1, h2]

theorem runIters_join_zero (cfg : OptimCfg) (ks : List ℕ) :
    runIters cfg ks 0 = (ks.map (fun k => iterationEvents cfg k 0)).flatten := by
  induction ks with
  | nil => rfl
  | cons a t ih => rw [runIters, ih]; simp

theorem custom_train_events_zero (cfg : OptimCfg) :
    custom_train_events cfg 0
      = runIters cfg (List.range' 0 cfg.numIteration) 0 := by
  unfold custom_train_events
  rw [Nat.zero_div, Nat.zero_mod, Nat.sub_zero]

/-- C1 counterexample.  The claim asserts that for every configuration,
resuming from checkpointed epoch count E replays exactly the suffix of the
uninterrupted counted schedule after its first E epochs.  With
num_iteration = 2, max_epoch = 1, distill_epoch = 1 and E = 1 the resumed
run re-executes the distillation epoch of iteration 0 (the uninterrupted
counted trace is [distill 0 0, train 1 0, distill 1 0] and its suffix after
1 epoch is [train 1 0, distill 1 0], but the resumed run executes all three
events again): iteration 0 skips supervised training (line 233), so
E = 1 does not decompose as the code assumes at lines 229-230 and 328. -/
theorem resume_suffix_counterexample :
    countedEvents ⟨2, 1, 1, 0⟩ 1 ≠ (countedEvents ⟨2, 1, 1, 0⟩ 0).drop 1 := by
  decide

/-- C1 amended.  When distill_epoch = 0 (and max_epoch > 0), custom_train
resumes exactly where it left off: the counted (training/distillation)
events executed from checkpointed epoch count E are exactly the suffix of
the uninterrupted run's counted events after its first E; and for any such
configuration, when E = num_iteration * (max_epoch + distill_epoch) no
training, distillation or fine-tuning epoch runs at all. -/
theorem custom_train_resume_suffix (cfg : OptimCfg) (E : ℕ)
    (hd : cfg.distillEpoch = 0) (hm : 0 < cfg.maxEpoch) :
    countedEvents cfg E = (countedEvents cfg 0).drop E
      ∧ (E = cfg.numIteration * (cfg.maxEpoch + cfg.distillEpoch) →
          custom_train_events cfg E = []) := by
  have hper : cfg.maxEpoch + cfg.distillEpoch = cfg.maxEpoch := by omega
  constructor
  · have hs : E % cfg.maxEpoch < cfg.maxEpoch := Nat.mod_lt _ hm
    have hE : (E / cfg.maxEpoch) * cfg.maxEpoch + E % cfg.maxEpoch = E := by
      rw [Nat.mul_comm]
      exact Nat.div_add_mod E cfg.maxEpoch
    have key := counted_run_drop cfg hd (E / cfg.maxEpoch) cfg.numIteration 0
      (E % cfg.maxEpoch) hs
    rw [hE, Nat.zero_add] at key
    unfold countedEvents
    rw [custom_train_events_zero]
    unfold custom_train_events
    rw [hper]
    exact key.symm
  · intro hEe
    have hq : E / (cfg.maxEpoch + cfg.distillEpoch) = cfg.numIteration := by
      rw [hper] at hEe ⊢
      rw [hEe]
      exact Nat.mul_div_cancel _ hm
    unfold custom_train_events
    rw [hq, Nat.sub_self]
    rfl

/-- C1 witness: a concrete resumable configuration (2 iterations of 2
training epochs, no distillation), resumed at E = 3. -/
theorem custom_train_resume_suffix_witness :
    countedEvents ⟨2, 2, 0, 3⟩ 3 = (countedEvents ⟨2, 2, 0, 3⟩ 0).drop 3
      ∧ (3 = (2 : ℕ) * (2 + 0) →
          custom_train_events ⟨2, 2, 0, 3⟩ 3 = []) :=
  custom_train_resume_suffix ⟨2, 2, 0, 3⟩ 3 rfl (by decide)

/-- C2 counterexample.  The claim asserts every outer iteration executes
the supervised training phase (epochs 0 .. max_epoch-1) before distilling.
With num_iteration = 1, max_epoch = 1, distill_epoch = 1, head_finetune = 1,
the fresh run contains no supervised training event at all: line 233 skips
the training phase at iteration 0 whenever distill_epoch > 0. -/
theorem iteration_phases_counterexample :
    (Ev.train 0 0 ∈ custom_train_events ⟨1, 1, 1, 1⟩ 0 → False)
      ∧ custom_train_events ⟨1, 1, 1, 1⟩ 0
          = [Ev.distill 0 0, Ev.finetune 0 0] := by
  decide

/-- C2 amended.  In a fresh run, the trace is the concatenation of the
per-iteration traces, and every outer iteration k with k ≠ 0 or
distill_epoch = 0 executes the three phases in order: supervised training
epochs 0 .. max_epoch-1, then distillation epochs 0 .. distill_epoch-1,
then head fine-tuning epochs 0 .. head_finetune-1.  (Iteration 0 with
distill_epoch > 0 skips the supervised training phase, line 233.) -/
theorem custom_train_iteration_phases (cfg : OptimCfg) :
    custom_train_events cfg 0
        = ((List.range cfg.numIteration).map
            (fun k => iterationEvents cfg k 0)).flatten
      ∧ ∀ k, (cfg.distillEpoch = 0 ∨ k ≠ 0) →
          iterationEvents cfg k 0
            = (List.range cfg.maxEpoch).map (Ev.train k)
              ++ (List.range cfg.distillEpoch).map (Ev.distill k)
              ++ (List.range cfg.headFinetune).map (Ev.finetune k) := by
  constructor
  · rw [custom_train_events_zero, ← List.range_eq_range',
      runIters_join_zero]
  · intro k hk
    unfold iterationEvents trainPhaseEvents distillPhaseEvents
      finetunePhaseEvents distillResumeEpoch
    rw [if_pos hk]
    have h0 : ¬ cfg.maxEpoch < 0 := by omega
    rw [if_neg h0]
    simp [List.range_eq_range']

/-- C2 witness: iteration 1 of a concrete configuration runs train, then
distill, then fine-tune, with full epoch ranges. -/
theorem custom_train_iteration_phases_witness :
    iterationEvents ⟨3, 1, 2, 1⟩ 1 0
      = (List.range 1).map (Ev.train 1)
        ++ (List.range 2).map (Ev.distill 1)
        ++ (List.range 1).map (Ev.finetune 1) :=
  (custom_train_iteration_phases ⟨3, 1, 2, 1⟩).2 1 (Or.inr (by decide))

/-- C10 counterexample.  The claim asserts one completed outer iteration
advances total_epoch by exactly max_epoch + distill_epoch.  With
max_epoch = 1, distill_epoch = 1, iteration 0 of a fresh run advances it by
1, not 2: the supervised training phase of iteration 0 is skipped
(line 233), so only its distillation epochs increment the counter. -/
theorem epoch_delta_counterexample :
    iterationEpochDelta ⟨1, 1, 1, 0⟩ 0 0
      ≠ (⟨1, 1, 1, 0⟩ : OptimCfg).maxEpoch
          + (⟨1, 1, 1, 0⟩ : OptimCfg).distillEpoch := by
  decide

/-- C10 amended.  total_epoch increments exactly on supervised training
epochs (line 317) and distillation epochs (line 359) and never on head
fine-tuning epochs; consequently a completed fresh-run iteration k advances
it by max_epoch + distill_epoch when k ≠ 0 or distill_epoch = 0, and by
distill_epoch only at iteration 0 when distill_epoch > 0 (training
skipped, line 233). -/
theorem total_epoch_iteration_delta (cfg : OptimCfg) (k s : ℕ) :
    iterationEpochDelta cfg k s
        = ((iterationEvents cfg k s).filter incrementsTotalEpoch).length
      ∧ (finetunePhaseEvents cfg k s).filter incrementsTotalEpoch = []
      ∧ iterationEpochDelta cfg k 0
          = (if cfg.distillEpoch = 0 ∨ k ≠ 0 then
              cfg.maxEpoch + cfg.distillEpoch
            else cfg.distillEpoch) := by
  refine ⟨?_, ?_, ?_⟩
  · unfold iterationEvents iterationEpochDelta
    rw [List.filter_append, List.filter_append]
    unfold trainPhaseEvents distillPhaseEvents finetunePhaseEvents
    rw [filter_counted_map_distill, filter_counted_map_finetune]
    by_cases h : cfg.distillEpoch = 0 ∨ k ≠ 0
    · rw [if_pos h, filter_counted_map_train]
      simp
    · rw [if_neg h]
      simp
  · unfold finetunePhaseEvents
    exact filter_counted_map_finetune _ _
  · unfold iterationEpochDelta trainPhaseEvents distillPhaseEvents
      distillResumeEpoch
    have h0 : ¬ cfg.maxEpoch < 0 := by omega
    rw [if_neg h0]
    by_cases h : cfg.distillEpoch = 0 ∨ k ≠ 0
    · rw [if_pos h, if_pos h]
      simp [List.length_map, List.length_range']
    · rw [if_neg h, if_neg h]
      simp [List.length_map, List.length_range']

-- The model/teacher/student chain (C4).

theorem mvalDims_modelAtIteration (d0 : ℕ × ℕ) (k : ℕ) :
    mvalDims d0 (modelAtIteration d0 k) = d0 := by
  induction k with
  | zero => rfl
  | succ k ih =>
    show mvalDims d0 (MVal.copyOf (MVal.freshStudent k
      (mvalDims d0 (modelAtIteration d0 k)).1
      (mvalDims d0 (modelAtIteration d0 k)).2)) = d0
    rw [mvalDims, mvalDims, ih]

/-- C4.  In every outer iteration k, the teacher handed to distill_epoch is
the model in use at the start of the iteration: the supplied model at
iteration 0 and, at every later iteration, the deep copy of the previous
iteration's distilled-and-fine-tuned student, which is the model of the
next iteration; the student is the freshly constructed GPSSEMModel with the
teacher's input/output dimensions, which equal the supplied model's
dimensions at every iteration. -/
theorem distill_teacher_student_chain (d0 : ℕ × ℕ) (k : ℕ) :
    (custom_train_iteration_models d0 k (modelAtIteration d0 k)).teacher
        = modelAtIteration d0 k
      ∧ (custom_train_iteration_models d0 0 (modelAtIteration d0 0)).teacher
        = MVal.supplied
      ∧ (custom_train_iteration_models d0 k (modelAtIteration d0 k)).student
        = MVal.freshStudent k (mvalDims d0 (modelAtIteration d0 k)).1
            (mvalDims d0 (modelAtIteration d0 k)).2
      ∧ modelAtIteration d0 (k + 1)
        = MVal.copyOf
            ((custom_train_iteration_models d0 k
              (modelAtIteration d0 k)).student)
      ∧ mvalDims d0
          ((custom_train_iteration_models d0 k
            (modelAtIteration d0 k)).student)
        = mvalDims d0 (modelAtIteration d0 k)
      ∧ mvalDims d0 (modelAtIteration d0 k) = d0 := by
  refine ⟨rfl, rfl, rfl, rfl, ?_, mvalDims_modelAtIteration d0 k⟩
  show mvalDims d0 (MVal.freshStudent k (mvalDims d0 (modelAtIteration d0 k)).1
    (mvalDims d0 (modelAtIteration d0 k)).2) = _
  rw [mvalDims]

-- np.argmin returns the first index of the minimum (for C5).

theorem npArgminAux_spec (xs : List ℚ) : ∀ (b : ℚ) (bi i : ℕ),
    (npArgminAux b bi i xs = bi ∧ ∀ y ∈ xs, b ≤ y)
    ∨ (∃ j, j < xs.length ∧ npArgminAux b bi i xs = i + j
        ∧ (∀ y ∈ xs, xs.getD j 0 ≤ y) ∧ xs.getD j 0 < b
        ∧ ∀ l, l < j → xs.getD j 0 < xs.getD l 0) := by
  induction xs with
  | nil =>
    intro b bi i
    left
    exact ⟨rfl, by simp⟩
  | cons x t ih =>
    intro b bi i
    by_cases hx : x < b
    · have hv : npArgminAux b bi i (x :: t) = npArgminAux x i (i + 1) t := by
        rw [npArgminAux, if_pos hx]
      rcases ih x i (i + 1) with ⟨hr, hall⟩ | ⟨j, hj, hr, hmin, hlt, hfirst⟩
      · right
        refine ⟨0, by simp, by rw [hv, hr, Nat.add_zero], ?_, ?_, ?_⟩
        · intro y hy
          rcases List.mem_cons.mp hy with h | h
          · rw [List.getD_cons_zero, h]
          · rw [List.getD_cons_zero]
            exact hall y h
        · rw [List.getD_cons_zero]
          exact hx
        · intro l hl
          omega
      · right
        refine ⟨j + 1, by simpa using Nat.succ_lt_succ hj,
          by rw [hv, hr]; omega, ?_, ?_, ?_⟩
        · intro y hy
          rw [List.getD_cons_succ]
          rcases List.mem_cons.mp hy with h | h
          · rw [h]
            exact le_of_lt hlt
          · exact hmin y h
        · rw [List.getD_cons_succ]
          exact lt_trans hlt hx
        · intro l hl
          rw [List.getD_cons_succ]
          cases l with
          | zero =>
            rw [List.getD_cons_zero]
            exact hlt
          | succ l =>
            rw [List.getD_cons_succ]
            exact hfirst l (by omega)
    · have hv : npArgminAux b bi i (x :: t) = npArgminAux b bi (i + 1) t := by
        rw [npArgminAux, if_neg hx]
      have hbx : b ≤ x := le_of_not_lt hx
      rcases ih b bi (i + 1) with ⟨hr, hall⟩ | ⟨j, hj, hr, hmin, hlt, hfirst⟩
      · left
        refine ⟨by rw [hv, hr], ?_⟩
        intro y hy
        rcases List.mem_cons.mp hy with h | h
        · rw [h]
          exact hbx
        · exact hall y h
      · right
        refine ⟨j + 1, by simpa using Nat.succ_lt_succ hj,
          by rw [hv, hr]; omega, ?_, ?_, ?_⟩
        · intro y hy
          rw [List.getD_cons_succ]
          rcases List.mem_cons.mp hy with h | h
          · rw [h]
            exact le_trans (le_of_lt hlt) hbx
          · exact hmin y h
        · rw [List.getD_cons_succ]
          exact hlt
        · intro l hl
          rw [List.getD_cons_succ]
          cases l with
          | zero =>
            rw [List.getD_cons_zero]
            exact lt_of_lt_of_le hlt hbx
          | succ l =>
            rw [List.getD_cons_succ]
            exact hfirst l (by omega)

theorem getD_mem_of_lt (xs : List ℚ) (j : ℕ) (h : j < xs.length) :
    xs.getD j 0 ∈ xs := by
  rw [List.getD_eq_getElem xs 0 h]
  exact List.getElem_mem h

theorem npArgmin_firstMin (xs : List ℚ) (h : xs ≠ []) :
    npArgmin xs < xs.length
      ∧ (∀ j, j < xs.length → xs.getD (npArgmin xs) 0 ≤ xs.getD j 0)
      ∧ ∀ l, l < npArgmin xs → xs.getD (npArgmin xs) 0 < xs.getD l 0 := by
  cases xs with
  | nil => exact absurd rfl h
  | cons x t =>
    have hv : npArgmin (x :: t) = npArgminAux x 0 1 t := rfl
    rcases npArgminAux_spec t x 0 1 with ⟨hr, hall⟩ | ⟨j, hj, hr, hmin, hlt, hfirst⟩
    · have h0 : npArgmin (x :: t) = 0 := by rw [hv, hr]
      rw [h0]
      refine ⟨by simp, ?_, ?_⟩
      · intro j hjl
        rw [List.getD_cons_zero]
        cases j with
        | zero => rw [List.getD_cons_zero]
        | succ j =>
          rw [List.getD_cons_succ]
          exact hall _ (getD_mem_of_lt t j (by simpa using hjl))
      · intro l hl
        omega
    · have h0 : npArgmin (x :: t) = j + 1 := by rw [hv, hr]; omega
      rw [h0]
      refine ⟨by simpa using Nat.succ_lt_succ hj, ?_, ?_⟩
      · intro jj hjl
        rw [List.getD_cons_succ]
        cases jj with
        | zero =>
          rw [List.getD_cons_zero]
          exact le_of_lt hlt
        | succ jj =>
          rw [List.getD_cons_succ]
          exact hmin _ (getD_mem_of_lt t jj (by simpa using hjl))
      · intro l hl
        rw [List.getD_cons_succ]
        cases l with
        | zero =>
          rw [List.getD_cons_zero]
          exact hlt
        | succ l =>
          rw [List.getD_cons_succ]
          exact hfirst l (by omega)

/-- C5.  On an eval epoch with enable_ckpt and ckpt_best set, a checkpoint
is saved if and only if total_epoch equals the selected best epoch, where
the best epoch is np.argmin of the recorded validation losses when
metric_best is auto (and then it is the first index attaining the minimal
recorded validation loss), and otherwise metric_agg applied to the recorded
validation values of metric_best. -/
theorem ckpt_best_save_iff (enableCkpt ckptBest isCkptEp isEval : Bool)
    (metricBest : String) (agg : MetricAgg) (valPerf : List PerfEntry)
    (totalEpoch : ℕ) (hEval : isEval = true) (hEnable : enableCkpt = true)
    (hBest : ckptBest = true) :
    (epochCkptDecision enableCkpt ckptBest isCkptEp isEval metricBest agg
          valPerf totalEpoch = true
        ↔ bestEpoch metricBest agg valPerf = totalEpoch)
      ∧ (metricBest = "auto" → valPerf ≠ [] →
          bestEpoch metricBest agg valPerf < valPerf.length
          ∧ (∀ j, j < valPerf.length →
              (valPerf.map PerfEntry.loss).getD
                  (bestEpoch metricBest agg valPerf) 0
                ≤ (valPerf.map PerfEntry.loss).getD j 0)
          ∧ ∀ l, l < bestEpoch metricBest agg valPerf →
              (valPerf.map PerfEntry.loss).getD
                  (bestEpoch metricBest agg valPerf) 0
                < (valPerf.map PerfEntry.loss).getD l 0) := by
  subst hEval hEnable hBest
  constructor
  · simp [epochCkptDecision]
  · intro hm hne
    have hbe : bestEpoch metricBest agg valPerf
        = npArgmin (valPerf.map PerfEntry.loss) := by
      unfold bestEpoch
      rw [if_neg (by simp [hm])]
    have hmapne : valPerf.map PerfEntry.loss ≠ [] := by
      simpa using hne
    have hspec := npArgmin_firstMin (valPerf.map PerfEntry.loss) hmapne
    rw [List.length_map] at hspec
    rw [hbe]
    exact hspec

/-- C5 witness: with recorded validation losses [2, 1, 1] the best epoch is
1 (first minimum) and the checkpoint decision at total_epoch = 1 is
positive exactly then. -/
theorem ckpt_best_save_iff_witness :
    (epochCkptDecision true true false true "auto" MetricAgg.argmin
          [⟨2, 0⟩, ⟨1, 0⟩, ⟨1, 5⟩] 1 = true
        ↔ bestEpoch "auto" MetricAgg.argmin [⟨2, 0⟩, ⟨1, 0⟩, ⟨1, 5⟩] = 1)
      ∧ ((("auto" : String) = "auto") →
          ([⟨2, 0⟩, ⟨1, 0⟩, ⟨1, 5⟩] : List PerfEntry) ≠ [] →
          bestEpoch "auto" MetricAgg.argmin [⟨2, 0⟩, ⟨1, 0⟩, ⟨1, 5⟩]
              < ([⟨2, 0⟩, ⟨1, 0⟩, ⟨1, 5⟩] : List PerfEntry).length
          ∧ (∀ j, j < ([⟨2, 0⟩, ⟨1, 0⟩, ⟨1, 5⟩] : List PerfEntry).length →
              (([⟨2, 0⟩, ⟨1, 0⟩, ⟨1, 5⟩] : List PerfEntry).map
                  PerfEntry.loss).getD
                  (bestEpoch "auto" MetricAgg.argmin
                    [⟨2, 0⟩, ⟨1, 0⟩, ⟨1, 5⟩]) 0
                ≤ (([⟨2, 0⟩, ⟨1, 0⟩, ⟨1, 5⟩] : List PerfEntry).map
                  PerfEntry.loss).getD j 0)
          ∧ ∀ l, l < bestEpoch "auto" MetricAgg.argmin
                [⟨2, 0⟩, ⟨1, 0⟩, ⟨1, 5⟩] →
              (([⟨2, 0⟩, ⟨1, 0⟩, ⟨1, 5⟩] : List PerfEntry).map
                  PerfEntry.loss).getD
                  (bestEpoch "auto" MetricAgg.argmin
                    [⟨2, 0⟩, ⟨1, 0⟩, ⟨1, 5⟩]) 0
                < (([⟨2, 0⟩, ⟨1, 0⟩, ⟨1, 5⟩] : List PerfEntry).map
                  PerfEntry.loss).getD l 0) :=
  ckpt_best_save_iff true true false true "auto" MetricAgg.argmin
    [⟨2, 0⟩, ⟨1, 0⟩, ⟨1, 5⟩] 1 rfl rfl rfl

-- The gradient-accumulation stepping schedule (C9).

theorem gradAccumGo_succ (clip : Bool) (B n i : ℕ) (pending : List ℕ)
    (k : ℕ) :
    gradAccumGo clip B n i pending (k + 1)
      = if (i + 1) % B = 0 ∨ i + 1 = n then
          ({ afterBatch := i + 1, clipped := clip,
              consumed := pending ++ [i] } ::
            (gradAccumGo clip B n (i + 1) [] k).1,
            (gradAccumGo clip B n (i + 1) [] k).2)
        else gradAccumGo clip B n (i + 1) (pending ++ [i]) k := rfl

theorem gradAccumGo_afterBatch (clip : Bool) (B n : ℕ) :
    ∀ (k i : ℕ) (pending : List ℕ),
    (gradAccumGo clip B n i pending k).1.map StepEv.afterBatch
      = (List.range' (i + 1) k).filter
          (fun j => decide (j % B = 0 ∨ j = n)) := by
  intro k
  induction k with
  | zero => intro i pending; rfl
  | succ k ih =>
    intro i pending
    rw [List.range'_succ]
    by_cases hc : (i + 1) % B = 0 ∨ i + 1 = n
    · simp only [gradAccumGo, if_pos hc]
      rw [List.map_cons, ih (i + 1) []]
      rw [List.filter_cons_of_pos (by simpa using hc)]
    · simp only [gradAccumGo, if_neg hc]
      rw [ih (i + 1) (pending ++ [i])]
      rw [List.filter_cons_of_neg (by simpa using hc)]

theorem gradAccumGo_consumed (clip : Bool) (B n : ℕ) :
    ∀ (k i : ℕ) (pending : List ℕ),
    ((gradAccumGo clip B n i pending k).1.map StepEv.consumed).flatten
        ++ (gradAccumGo clip B n i pending k).2
      = pending ++ List.range' i k := by
  intro k
  induction k with
  | zero => intro i pending; simp [gradAccumGo]
  | succ k ih =>
    intro i pending
    rw [List.range'_succ]
    by_cases hc : (i + 1) % B = 0 ∨ i + 1 = n
    · simp only [gradAccumGo, if_pos hc]
      rw [List.map_cons, List.flatten_cons, List.append_assoc,
        ih (i + 1) []]
      simp
    · simp only [gradAccumGo, if_neg hc]
      rw [ih (i + 1) (pending ++ [i])]
      simp

theorem gradAccumGo_rest (clip : Bool) (B n : ℕ) :
    ∀ (k i : ℕ) (pending : List ℕ), i + k = n →
    (gradAccumGo clip B n i pending k).2
      = if k = 0 then pending else [] := by
  intro k
  induction k with
  | zero => intro i pending h; rfl
  | succ k ih =>
    intro i pending h
    rw [if_neg (Nat.succ_ne_zero k)]
    cases k with
    | zero =>
      have hc : (i + 1) % B = 0 ∨ i + 1 = n := Or.inr (by omega)
      rw [gradAccumGo_succ, if_pos hc]
      rfl
    | succ m =>
      by_cases hc : (i + 1) % B = 0 ∨ i + 1 = n
      · rw [gradAccumGo_succ, if_pos hc]
        rw [ih (i + 1) [] (by omega)]
        rw [if_neg (Nat.succ_ne_zero m)]
      · rw [gradAccumGo_succ, if_neg hc]
        rw [ih (i + 1) (pending ++ [i]) (by omega)]
        rw [if_neg (Nat.succ_ne_zero m)]

theorem gradAccumGo_clipped (clip : Bool) (B n : ℕ) :
    ∀ (k i : ℕ) (pending : List ℕ),
    ∀ e ∈ (gradAccumGo clip B n i pending k).1, e.clipped = clip := by
  intro k
  induction k with
  | zero => intro i pending e he; exact absurd he (List.not_mem_nil e)
  | succ k ih =>
    intro i pending e he
    by_cases hc : (i + 1) % B = 0 ∨ i + 1 = n
    · simp only [gradAccumGo, if_pos hc] at he
      rcases List.mem_cons.mp he with h | h
      · rw [h]
      · exact ih (i + 1) [] e h
    · simp only [gradAccumGo, if_neg hc] at he
      exact ih (i + 1) (pending ++ [i]) e he

/-- C9.  For a loader of n batches and batch_accumulation B ≥ 1, both
train_epoch and head_epoch step the optimizer exactly after the batches
whose 1-based index is a multiple of B or equals n; gradient clipping
precedes a step exactly when clip_grad_norm is set; every batch gradient
is consumed by exactly one step (their consumed index segments concatenate
to 0 .. n-1 without repetition) and no accumulated gradient survives the
loop. -/
theorem grad_accum_step_schedule (clip : Bool) (B n : ℕ) (hB : 1 ≤ B) :
    (train_epoch_steps clip B n).1.map StepEv.afterBatch
        = (List.range' 1 n).filter (fun j => decide (j % B = 0 ∨ j = n))
      ∧ ((train_epoch_steps clip B n).1.map StepEv.consumed).flatten
        = List.range n
      ∧ (train_epoch_steps clip B n).2 = []
      ∧ (∀ e ∈ (train_epoch_steps clip B n).1, e.clipped = clip)
      ∧ head_epoch_steps clip B n = train_epoch_steps clip B n := by
  have hrest2 : (gradAccumGo clip B n 0 [] n).2 = [] := by
    rw [gradAccumGo_rest clip B n n 0 [] (by omega)]
    cases n <;> rfl
  have hcons := gradAccumGo_consumed clip B n n 0 []
  rw [hrest2, List.append_nil, List.nil_append] at hcons
  refine ⟨?_, ?_, hrest2, ?_, rfl⟩
  · exact gradAccumGo_afterBatch clip B n n 0 []
  · rw [List.range_eq_range']
    exact hcons
  · intro e he
    exact gradAccumGo_clipped clip B n n 0 [] e he

/-- C9 witness: with 5 batches and accumulation 2, steps happen after
batches 2, 4 and 5, consuming gradient segments [0,1], [2,3], [4]. -/
theorem grad_accum_step_schedule_witness :
    (train_epoch_steps true 2 5).1.map StepEv.afterBatch
        = (List.range' 1 5).filter (fun j => decide (j % 2 = 0 ∨ j = 5))
      ∧ ((train_epoch_steps true 2 5).1.map StepEv.consumed).flatten
        = List.range 5
      ∧ (train_epoch_steps true 2 5).2 = []
      ∧ (∀ e ∈ (train_epoch_steps true 2 5).1, e.clipped = true)
      ∧ head_epoch_steps true 2 5 = train_epoch_steps true 2 5 :=
  grad_accum_step_schedule true 2 5 (by decide)

-- Perf-list bookkeeping during the supervised phase (C6).

theorem appendPerfEntry_ok (isEval : Bool) (ee : ℕ → PerfEntry) (i : ℕ)
    (l l2 : List PerfEntry)
    (h : appendPerfEntry isEval ee i l = Except.ok l2) :
    l2.length = l.length + 1
      ∧ (isEval = true → l2 = l ++ [ee i])
      ∧ (isEval = false → ∃ e, l.getLast? = some e ∧ l2 = l ++ [e]) := by
  unfold appendPerfEntry at h
  cases isEval with
  | true =>
    rw [if_pos rfl] at h
    have h2 : l ++ [ee i] = l2 := by
      injection h
    subst h2
    refine ⟨by simp, fun _ => rfl, ?_⟩
    intro hf
    simp at hf
  | false =>
    rw [if_neg (by simp)] at h
    cases hl : l.getLast? with
    | none =>
      rw [hl] at h
      cases h
    | some e =>
      rw [hl] at h
      have h2 : l ++ [e] = l2 := by
        injection h
      subst h2
      refine ⟨by simp, ?_, fun _ => ⟨e, rfl, rfl⟩⟩
      intro ht
      simp at ht

theorem updatePerfSplits_ok (isEval : Bool) (ee : ℕ → PerfEntry) :
    ∀ (ls : List (List PerfEntry)) (i : ℕ) (ls2 : List (List PerfEntry)),
    updatePerfSplits isEval ee i ls = Except.ok ls2 →
    ls2.length = ls.length
      ∧ ∀ j, j < ls.length →
          (ls2.getD j []).length = (ls.getD j []).length + 1
          ∧ (isEval = true → ls2.getD j [] = ls.getD j [] ++ [ee (i + j)])
          ∧ (isEval = false → ∃ e, (ls.getD j []).getLast? = some e
              ∧ ls2.getD j [] = ls.getD j [] ++ [e]) := by
  intro ls
  induction ls with
  | nil =>
    intro i ls2 h
    have : ([] : List (List PerfEntry)) = ls2 := by
      injection h
    subst this
    exact ⟨rfl, fun j hj => absurd hj (by simp)⟩
  | cons l ls ih =>
    intro i ls2 h
    rw [updatePerfSplits] at h
    cases hap : appendPerfEntry isEval ee i l with
    | error e =>
      rw [hap] at h
      cases h
    | ok l2 =>
      rw [hap] at h
      cases hup : updatePerfSplits isEval ee (i + 1) ls with
      | error e =>
        rw [hup] at h
        cases h
      | ok lsr =>
        rw [hup] at h
        have hcons : l2 :: lsr = ls2 := by
          injection h
        subst hcons
        have hhead := appendPerfEntry_ok isEval ee i l l2 hap
        have htail := ih (i + 1) lsr hup
        refine ⟨by simpa using htail.1, ?_⟩
        intro j hj
        cases j with
        | zero =>
          refine ⟨by simpa using hhead.1, ?_, ?_⟩
          · intro ht
            simpa using hhead.2.1 ht
          · intro hf
            simpa using hhead.2.2 hf
        | succ j =>
          have hj2 : j < ls.length := by simpa using hj
          have := htail.2 j hj2
          refine ⟨by simpa using this.1, ?_, ?_⟩
          · intro ht
            have h1 := this.2.1 ht
            have harith : i + 1 + j = i + (j + 1) := by omega
            rw [harith] at h1
            simpa using h1
          · intro hf
            simpa using this.2.2 hf

/-- C6.  Each completed (non-erroring) supervised training epoch appends
the training stats to the training split's perf list, a fresh evaluation
result to each evaluation split's list exactly when is_eval_epoch holds at
the current total_epoch and a duplicate of that split's last entry
otherwise; therefore all splits' perf lists stay the same length (growing
by one), and the loss passed to the plateau scheduler is the last recorded
validation loss. -/
theorem train_epoch_perf_invariants (isEval : Bool) (trainEntry : PerfEntry)
    (evalEntry : ℕ → PerfEntry) (perf perf2 : List (List PerfEntry))
    (v : ℚ) (m : ℕ)
    (hok : train_epoch_perf isEval trainEntry evalEntry perf
      = Except.ok (perf2, v))
    (hlen : ∀ l ∈ perf, l.length = m) :
    TrainEpochPerfPost isEval trainEntry evalEntry perf perf2 v m := by
  cases perf with
  | nil =>
    simp only [train_epoch_perf] at hok
    exact Except.noConfusion hok
  | cons p0 rest =>
    simp only [train_epoch_perf] at hok
    split at hok
    next e hup =>
      exact Except.noConfusion hok
    next rest2 hup =>
      have hsplits := updatePerfSplits_ok isEval evalEntry rest 1 rest2 hup
      split at hok
      next w hlast =>
        rw [Except.ok.injEq, Prod.mk.injEq] at hok
        obtain ⟨hperf2, hv⟩ := hok
        have hv : w.loss = v := hv
        subst hperf2
        refine ⟨by simpa using hsplits.1, ?_, by simp, ?_, ?_⟩
        · intro l hl
          rcases List.mem_cons.mp hl with hh | hh
          · have : p0.length = m := hlen p0 (List.mem_cons_self p0 rest)
            rw [hh]
            simp [this]
          · rcases List.mem_iff_getElem.mp hh with ⟨j, hjl, hje⟩
            have hj : j < rest.length := by
              have := hsplits.1
              omega
            have hget := (hsplits.2 j hj).1
            have hrestlen : (rest.getD j []).length = m := by
              have hmem : rest.getD j [] ∈ rest := by
                rw [List.getD_eq_getElem rest [] hj]
                exact List.getElem_mem hj
              exact hlen _ (List.mem_cons_of_mem _ hmem)
            have : l = rest2.getD j [] := by
              rw [List.getD_eq_getElem rest2 [] (by omega), hje]
            rw [this, hget, hrestlen]
        · intro i h1 hi
          cases i with
          | zero => omega
          | succ j =>
            have hj : j < rest.length := by simpa using hi
            have := hsplits.2 j hj
            have harith : 1 + j = j + 1 := by omega
            refine ⟨?_, ?_⟩
            · intro ht
              have h2 := this.2.1 ht
              rw [harith] at h2
              simpa using h2
            · intro hf
              have h2 := this.2.2 hf
              simpa using h2
        · exact ⟨w, hlast, hv.symm⟩
      next hlast =>
        exact Except.noConfusion hok

/-- C6 witness: a concrete non-eval epoch on three splits with one prior
entry each; every list grows by one, the evaluation splits duplicate their
last entries, and the scheduler sees the duplicated validation loss. -/
theorem train_epoch_perf_invariants_witness :
    TrainEpochPerfPost false ⟨4, 0⟩ (fun i => ⟨(9 : ℚ), (9 : ℚ)⟩)
      [[⟨1, 0⟩], [⟨2, 0⟩], [⟨3, 0⟩]]
      [[⟨1, 0⟩, ⟨4, 0⟩], [⟨2, 0⟩, ⟨2, 0⟩], [⟨3, 0⟩, ⟨3, 0⟩]] 2 1 :=
  train_epoch_perf_invariants false ⟨4, 0⟩ (fun i => ⟨(9 : ℚ), (9 : ℚ)⟩)
    [[⟨1, 0⟩], [⟨2, 0⟩], [⟨3, 0⟩]]
    [[⟨1, 0⟩, ⟨4, 0⟩], [⟨2, 0⟩, ⟨2, 0⟩], [⟨3, 0⟩, ⟨3, 0⟩]] 2 1
    rfl (by decide)

-- Partial-layer freezing (C8).

theorem getD_map_of_lt {α : Type} (c : List α) (f : α → α) (j : ℕ) (d : α)
    (h : j < c.length) : (c.map f).getD j d = f (c.getD j d) := by
  rw [List.getD_eq_getElem _ _ (by simpa using h), List.getD_eq_getElem _ _ h]
  simp

theorem getD_mapIdx_of_lt {α : Type} (c : List α) (f : ℕ → α → α) (j : ℕ)
    (d : α) (h : j < c.length) : (c.mapIdx f).getD j d = f j (c.getD j d) := by
  rw [List.getD_eq_getElem _ _ (by simpa using h), List.getD_eq_getElem _ _ h]
  rw [List.getElem_mapIdx]

theorem setTrainableLayers_frame (m : List (List Layer)) (N i j : ℕ)
    (hi : i + 2 < m.length)
    (hj : j < (m.getD i []).length)
    (hN : i + 3 = m.length → ¬(N = 0 ∨ (m.getD i []).length ≤ j + N)) :
    layerAt (setTrainableLayers N m) i j = layerAt m i j
      ∧ ((setTrainableLayers N m).getD i []).length = (m.getD i []).length
      ∧ (setTrainableLayers N m).length = m.length := by
  have him : i < m.length := by omega
  have h1len : (m.mapIdx
      (fun i c => if m.length ≤ i + 2 then enableAllParams c else c)).length
      = m.length := by simp
  have h1 : (m.mapIdx
      (fun i c => if m.length ≤ i + 2 then enableAllParams c else c)).getD i []
      = m.getD i [] := by
    rw [getD_mapIdx_of_lt _ _ _ _ him, if_neg (by omega)]
  have h2 : (setTrainableLayers N m).getD i []
      = if i + 3 = m.length then enableLastN N (m.getD i []) else m.getD i [] := by
    unfold setTrainableLayers
    rw [getD_mapIdx_of_lt _ _ _ _ (by rw [h1len]; exact him), h1]
  by_cases h3 : i + 3 = m.length
  · rw [if_pos h3] at h2
    have hcond : ¬(N = 0 ∨ (m.getD i []).length ≤ j + N) := hN h3
    have h4 : layerAt (setTrainableLayers N m) i j = layerAt m i j := by
      unfold layerAt
      rw [h2]
      unfold enableLastN
      rw [getD_mapIdx_of_lt _ _ _ _ hj, if_neg hcond]
    refine ⟨h4, ?_, by unfold setTrainableLayers; simp⟩
    rw [h2]
    unfold enableLastN
    simp
  · rw [if_neg h3] at h2
    refine ⟨by unfold layerAt; rw [h2], by rw [h2],
      by unfold setTrainableLayers; simp⟩

theorem stepTrainable_frame (m : List (List Layer))
    (upd : List Int → List Int) (i j : ℕ)
    (hi : i < m.length) (hj : j < (m.getD i []).length)
    (hrg : (layerAt m i j).requiresGrad = false) :
    layerAt (stepTrainable upd m) i j = layerAt m i j
      ∧ ((stepTrainable upd m).getD i []).length = (m.getD i []).length
      ∧ (stepTrainable upd m).length = m.length := by
  have h1 : (stepTrainable upd m).getD i []
      = (m.getD i []).map (fun l =>
          if l.requiresGrad then { l with params := upd l.params } else l) := by
    unfold stepTrainable
    rw [getD_map_of_lt _ _ _ _ hi]
  refine ⟨?_, by rw [h1]; simp, by unfold stepTrainable; simp⟩
  unfold layerAt
  rw [h1, getD_map_of_lt _ _ _ _ hj]
  unfold layerAt at hrg
  rw [if_neg (by rw [hrg]; simp)]

/-- C8 counterexample.  The claim asserts that during the supervised phase
only the designated layers are trainable and all other layers' parameters
stay unchanged.  Lines 222-227 only enable requires_grad and never disable
it, so in a model whose first child (outside every designated set) enters
custom_train trainable, one optimizer step changes its parameters. -/
theorem partial_freeze_counterexample :
    (layerAt (stepTrainable (fun p => p.map (fun x => x + 1))
          (setTrainableLayers 1
            [[⟨[0], true⟩], [⟨[0], false⟩], [⟨[0], false⟩],
              [⟨[0], false⟩]])) 0 0).params
      ≠ (layerAt [[⟨[0], true⟩], [⟨[0], false⟩], [⟨[0], false⟩],
            [⟨[0], false⟩]] 0 0).params := by
  decide

/-- C8 amended.  The requires_grad loop enables training on the last two
top-level children and on the last N_train_gps layers of the third-from-last
child; it never disables training elsewhere, so a layer outside these sets
keeps its parameters across every optimizer step of the supervised phase
exactly when it entered custom_train with requires_grad disabled. -/
theorem partial_freeze_frame (m : List (List Layer)) (N : ℕ)
    (upd : List Int → List Int) (k i j : ℕ)
    (hi : i + 2 < m.length)
    (hj : j < (m.getD i []).length)
    (hN : i + 3 = m.length → ¬(N = 0 ∨ (m.getD i []).length ≤ j + N))
    (hrg : (layerAt m i j).requiresGrad = false) :
    layerAt ((stepTrainable upd)^[k] (setTrainableLayers N m)) i j
        = layerAt m i j
      ∧ (∀ i2 j2, m.length ≤ i2 + 2 → j2 < (m.getD i2 []).length →
          (layerAt (setTrainableLayers N m) i2 j2).requiresGrad = true)
      ∧ (∀ j2, j2 < (m.getD (m.length - 3) []).length →
          (N = 0 ∨ (m.getD (m.length - 3) []).length ≤ j2 + N) →
          (layerAt (setTrainableLayers N m) (m.length - 3) j2).requiresGrad
            = true) := by
  have hset := setTrainableLayers_frame m N i j hi hj hN
  refine ⟨?_, ?_, ?_⟩
  · have hinv : ∀ t,
        layerAt ((stepTrainable upd)^[t] (setTrainableLayers N m)) i j
            = layerAt m i j
          ∧ (((stepTrainable upd)^[t] (setTrainableLayers N m)).getD i []).length
            = (m.getD i []).length
          ∧ ((stepTrainable upd)^[t] (setTrainableLayers N m)).length
            = m.length := by
      intro t
      induction t with
      | zero => simpa using hset
      | succ t iht =>
        rw [Function.iterate_succ_apply']
        have hstep := stepTrainable_frame
          ((stepTrainable upd)^[t] (setTrainableLayers N m)) upd i j
          (by rw [iht.2.2]; omega) (by rw [iht.2.1]; exact hj)
          (by rw [iht.1]; exact hrg)
        exact ⟨by rw [hstep.1, iht.1], by rw [hstep.2.1, iht.2.1],
          by rw [hstep.2.2, iht.2.2]⟩
    exact (hinv k).1
  · intro i2 j2 h2 hj2
    have hi2 : i2 < m.length := by
      by_contra hcon
      rw [List.getD_eq_default _ _ (by omega)] at hj2
      simp at hj2
    have h1 : (m.mapIdx
        (fun i c => if m.length ≤ i + 2 then enableAllParams c else c)).getD
          i2 [] = enableAllParams (m.getD i2 []) := by
      rw [getD_mapIdx_of_lt _ _ _ _ hi2, if_pos h2]
    have h2g : (setTrainableLayers N m).getD i2 []
        = enableAllParams (m.getD i2 []) := by
      unfold setTrainableLayers
      rw [getD_mapIdx_of_lt _ _ _ _ (by simpa using hi2), h1,
        if_neg (by omega)]
    unfold layerAt
    rw [h2g]
    unfold enableAllParams
    rw [getD_map_of_lt _ _ _ _ hj2]
    rfl
  · intro j2 hj2 hcond
    have hlen3 : 3 ≤ m.length := by omega
    have hi3 : m.length - 3 < m.length := by omega
    have h1 : (m.mapIdx
        (fun i c => if m.length ≤ i + 2 then enableAllParams c else c)).getD
          (m.length - 3) [] = m.getD (m.length - 3) [] := by
      rw [getD_mapIdx_of_lt _ _ _ _ hi3, if_neg (by omega)]
    have h2g : (setTrainableLayers N m).getD (m.length - 3) []
        = enableLastN N (m.getD (m.length - 3) []) := by
      unfold setTrainableLayers
      rw [getD_mapIdx_of_lt _ _ _ _ (by simpa using hi3), h1,
        if_pos (by omega)]
    unfold layerAt
    rw [h2g]
    unfold enableLastN
    rw [getD_mapIdx_of_lt _ _ _ _ hj2, if_pos hcond]
    rfl

/-- C8 witness: a four-child model entering fully frozen; the first child's
only layer stays frozen and unchanged across two optimizer steps, while the
designated children become trainable. -/
theorem partial_freeze_frame_witness :
    layerAt ((stepTrainable (fun p => p.map (fun x => x * 2)))^[2]
          (setTrainableLayers 1
            [[⟨[5], false⟩], [⟨[6], false⟩], [⟨[7], false⟩],
              [⟨[8], false⟩]])) 0 0
        = layerAt [[⟨[5], false⟩], [⟨[6], false⟩], [⟨[7], false⟩],
            [⟨[8], false⟩]] 0 0
      ∧ (∀ i2 j2,
          ([[⟨[5], false⟩], [⟨[6], false⟩], [⟨[7], false⟩],
            [⟨[8], false⟩]] : List (List Layer)).length ≤ i2 + 2 →
          j2 < (([[⟨[5], false⟩], [⟨[6], false⟩], [⟨[7], false⟩],
            [⟨[8], false⟩]] : List (List Layer)).getD i2 []).length →
          (layerAt (setTrainableLayers 1
            [[⟨[5], false⟩], [⟨[6], false⟩], [⟨[7], false⟩],
              [⟨[8], false⟩]]) i2 j2).requiresGrad = true)
      ∧ (∀ j2,
          j2 < (([[⟨[5], false⟩], [⟨[6], false⟩], [⟨[7], false⟩],
            [⟨[8], false⟩]] : List (List Layer)).getD
              (([[⟨[5], false⟩], [⟨[6], false⟩], [⟨[7], false⟩],
                [⟨[8], false⟩]] : List (List Layer)).length - 3) []).length →
          (1 = 0 ∨ (([[⟨[5], false⟩], [⟨[6], false⟩], [⟨[7], false⟩],
            [⟨[8], false⟩]] : List (List Layer)).getD
              (([[⟨[5], false⟩], [⟨[6], false⟩], [⟨[7], false⟩],
                [⟨[8], false⟩]] : List (List Layer)).length - 3) []).length
              ≤ j2 + 1) →
          (layerAt (setTrainableLayers 1
            [[⟨[5], false⟩], [⟨[6], false⟩], [⟨[7], false⟩],
              [⟨[8], false⟩]])
            (([[⟨[5], false⟩], [⟨[6], false⟩], [⟨[7], false⟩],
              [⟨[8], false⟩]] : List (List Layer)).length - 3)
            j2).requiresGrad = true) :=
  partial_freeze_frame
    [[⟨[5], false⟩], [⟨[6], false⟩], [⟨[7], false⟩], [⟨[8], false⟩]]
    1 (fun p => p.map (fun x => x * 2)) 2 0 0
    (by decide) (by decide) (by decide) (by decide)

-- The distillation loss targets (C3).

/-- C3 counterexample.  The claim asserts the distillation loss compares
the student's distribution to the teacher's temperature-softened soft
targets rather than to a single hard label per position.  Two teacher
outputs with different temperature-softened distributions give the very
same loss once the sampled labels agree (the loss reads the teacher only
through the sampled hard label, line 128), so the loss is not a comparison
against the soft targets. -/
theorem distill_soft_target_counterexample :
    distill_batch 1 2 (fun _ _ => 0) (fun _ _ => (0 : ℝ)) 1 (fun _ => 0)
        = distill_batch 1 2 (fun _ _ => 0)
            (fun _ v => if v = 0 then (1 : ℝ) else 0) 1 (fun _ => 0)
      ∧ softTarget 2 (fun _ => (0 : ℝ)) 1
        ≠ softTarget 2 (fun v => if v = 0 then (1 : ℝ) else 0) 1 := by
  constructor
  · rfl
  · intro h
    have h0 := congrFun h 0
    have he : (1 : ℝ) < Real.exp 1 := by
      have h0e : Real.exp 0 < Real.exp 1 := Real.exp_lt_exp.mpr zero_lt_one
      rwa [Real.exp_zero] at h0e
    have hpos : (0 : ℝ) < Real.exp 1 + 1 := by positivity
    simp only [softTarget, softmaxR, Fin.sum_univ_two] at h0
    norm_num [Real.exp_zero] at h0
    field_simp at h0
    linarith

/-- C3 amended.  In every distillation batch the teacher's softmax (with no
temperature) assigns positive probability to every label, a hard label per
position is sampled from it, and the loss is the mean hard-label
cross-entropy of the student's temperature-scaled logits at those sampled
labels; in particular the loss depends on the teacher only through the
sampled labels, not through its softened distribution. -/
theorem distill_hard_label_loss (n V : ℕ) (oS oT oT2 : Fin n → Fin V → ℝ)
    (tau : ℝ) (sample : (Fin V → ℝ) → Fin V) :
    (∀ (p : Fin n) (i : Fin V), 0 < teacherSampleProb V (oT p) i)
      ∧ ((∀ p, sample (teacherSampleProb V (oT p))
            = sample (teacherSampleProb V (oT2 p))) →
          distill_batch n V oS oT tau sample
            = distill_batch n V oS oT2 tau sample)
      ∧ (∀ lab : Fin n → Fin V,
          distill_batch_loss n V oS tau lab
            = (∑ p, -Real.log
                (softmaxR V (fun v => oS p v / tau) (lab p))) / n) := by
  refine ⟨?_, ?_, fun lab => rfl⟩
  · intro p i
    unfold teacherSampleProb softmaxR
    apply div_pos (Real.exp_pos _)
    haveI : Nonempty (Fin V) := ⟨i⟩
    exact Finset.sum_pos (fun j _ => Real.exp_pos _) Finset.univ_nonempty
  · intro hsame
    unfold distill_batch
    rw [funext hsame]

/-- C3 witness: at concrete logits every label has positive sampling
probability, and two teachers with different logits but equal sampled
labels give equal batch losses. -/
theorem distill_hard_label_loss_witness :
    (∀ (p : Fin 1) (i : Fin 2),
        0 < teacherSampleProb 2 ((fun _ _ => (0 : ℝ)) p) i)
      ∧ distill_batch 1 2 (fun _ _ => 0) (fun _ _ => (0 : ℝ)) 1 (fun _ => 1)
        = distill_batch 1 2 (fun _ _ => 0)
            (fun _ v => if v = 0 then (2 : ℝ) else 0) 1 (fun _ => 1) :=
  ⟨(distill_hard_label_loss 1 2 (fun _ _ => 0) (fun _ _ => 0)
      (fun _ v => if v = 0 then (2 : ℝ) else 0) 1 (fun _ => 1)).1,
    (distill_hard_label_loss 1 2 (fun _ _ => 0) (fun _ _ => 0)
      (fun _ v => if v = 0 then (2 : ℝ) else 0) 1 (fun _ => 1)).2.1
      (fun p => rfl)⟩

-- Head fine-tuning frames the backbone (C7).

/-- C7.  head_epoch runs the backbone under torch.no_grad(), applies the
temperature-tau softmax to its reshaped output, and feeds the detached
result to post_mp; backward therefore produces no backbone gradient, the
optimizer leaves every backbone parameter unchanged over the whole epoch,
and only the post-processing head can receive updates. -/
theorem head_epoch_frames_backbone {β : Type} (n V : ℕ)
    (forwardUnnormalizeSem : List ℝ → β → Fin n → Fin V → ℝ)
    (gradPostMp : List ℝ → (Fin n → Fin V → ℝ) → List ℝ)
    (stepFn : List ℝ → List ℝ → List ℝ) (tau : ℝ) (s : SemParams)
    (batches : List β) :
    (head_epoch_params n V forwardUnnormalizeSem gradPostMp stepFn tau s
        batches).backboneP = s.backboneP
      ∧ (∀ (q : SemParams) (b : β),
          (head_batch_grads n V forwardUnnormalizeSem gradPostMp tau
            q b).backboneG = none)
      ∧ (∀ (q : SemParams) (b : β) (p : Fin n) (v : Fin V),
          head_batch_input n V forwardUnnormalizeSem tau q.backboneP b p v
            = softmaxR V
                (fun w => forwardUnnormalizeSem q.backboneP b p w / tau) v) := by
  refine ⟨?_, fun q b => rfl, fun q b p v => rfl⟩
  induction batches generalizing s with
  | nil => rfl
  | cons b t ih =>
    simp only [head_epoch_params, List.foldl_cons] at ih ⊢
    rw [ih]
    rfl
